import Mathlib

/-!
Verification of the SafetyAgent repository against its specification.

The repository ingests append-only JSONL event logs produced by an agent
runtime into relational state (sessions, messages, tool calls) and serves
them through a read-only query surface with a React dashboard.

The ingestion and synchronization engine (Incremental Reader, Entry
Decoder, Correlator/Synchronizer, cursor handling) is not present in the
available sources, so those components are modelled from the
specification, as marked on each definition.  The frontend components
(`api.ts`, `Monitor.tsx`, `ActivityTab.tsx`) are embedded directly from
their TypeScript sources.
-/

namespace SafetyAgent

/-! ## Domain events (Entry Decoder output)

Modelled from the spec: §4.2 — the decoder turns one scrubbed line into a
discriminated domain event (`SessionUpdate`, `MessageAppend`,
`ToolCallStart`, `ToolCallResult`) or a `DecodeFailure`. -/

/-- Modelled from the spec: §4.2 decode failures are invalid JSON or an
unknown/missing discriminator field; the concrete JSON parser is not in
the available sources. -/
inductive DecodeFailure where
  | invalidJson
  | unknownEventKind
deriving DecidableEq, Repr

/-- Modelled from the spec: §3/§4.3 — session/model info carried by a
`SessionUpdate` entry. -/
structure SessE where
  sessionId : String
  timestamp : Nat
  provider : String
  modelName : String
deriving DecidableEq, Repr

/-- Modelled from the spec: §3 Message attributes carried by a
`MessageAppend` entry (payload fields beyond those the claims touch are
omitted; they are written exactly once like `contentText`). -/
structure MsgE where
  messageId : String
  sessionId : String
  role : String
  timestamp : Nat
  contentText : String
  totalTokens : Nat
deriving DecidableEq, Repr

/-- Modelled from the spec: §4.3 — fields of a `ToolCallStart` entry. -/
structure StartE where
  toolCallId : String
  initiatingMessageId : String
  toolName : String
  arguments : String
  startedAt : Nat
deriving DecidableEq, Repr

/-- Modelled from the spec: §4.3 — fields of a `ToolCallResult` entry. -/
structure ResultE where
  toolCallId : String
  resultMessageId : String
  resultText : String
  isError : Bool
  completedAt : Nat
deriving DecidableEq, Repr

/-- Modelled from the spec: §4.2 — the four decoded event kinds. -/
inductive Entry where
  | sessionUpdate (e : SessE)
  | messageAppend (e : MsgE)
  | toolCallStart (e : StartE)
  | toolCallResult (e : ResultE)
deriving DecidableEq, Repr

/-! ## Stored rows (relational state)

Modelled from the spec: §3 data model, cross-checked against the SQL
schema in the repository README (sessions, messages, tool_calls). -/

/-- Modelled from the spec: §3 Session — first-seen time, last-activity
time, current model provider/name (source file path and offset live in
the per-file cursor map). -/
structure SessionRow where
  firstSeenAt : Nat
  lastActivityAt : Nat
  modelProvider : String
  modelName : String
deriving DecidableEq, Repr

/-- Modelled from the spec: §3 Message row, keyed by globally unique
`messageId`. -/
structure MessageRow where
  messageId : String
  sessionId : String
  role : String
  timestamp : Nat
  contentText : String
  totalTokens : Nat
deriving DecidableEq, Repr

/-- Modelled from the spec: §3 — tool call status is one of exactly
running / completed / failed. -/
inductive ToolStatus where
  | running
  | completed
  | failed
deriving DecidableEq, Repr

/-- A status is terminal when it is completed or failed. -/
def ToolStatus.isTerminal : ToolStatus → Bool
  | .running => false
  | .completed => true
  | .failed => true

/-- Modelled from the spec: §3 ToolCall — initiating and result message
references are both optional and filled independently as they arrive;
start-half fields are `none` on a placeholder row created by an
out-of-order result. -/
structure ToolCallRow where
  initiatingMessageId : Option String
  resultMessageId : Option String
  toolName : Option String
  arguments : Option String
  startedAt : Option Nat
  completedAt : Option Nat
  durationMs : Option Int
  isError : Option Bool
  resultText : Option String
  status : ToolStatus
deriving DecidableEq, Repr

/-- A fresh tool-call row with no fields populated yet. -/
def blankTool : ToolCallRow :=
  { initiatingMessageId := none
    resultMessageId := none
    toolName := none
    arguments := none
    startedAt := none
    completedAt := none
    durationMs := none
    isError := none
    resultText := none
    status := .running }

/-- Modelled from the spec: §4.3 — duration = completed_at − started_at,
available only once both halves are known. -/
def recomputeDuration : Option Nat → Option Nat → Option Int
  | some s, some c => some ((c : Int) - (s : Int))
  | _, _ => none

/-- The whole durable store: the three entity tables plus the per-file
byte cursors.  Keyed tables are total functions from the external key, so
each key has at most one row by construction (the spec's global
uniqueness invariants); messages are kept as an explicit row list so
that duplicate insertion is representable and provably avoided. -/
structure Store where
  sessions : String → Option SessionRow
  messages : List MessageRow
  toolCalls : String → Option ToolCallRow
  cursors : String → Nat

/-! ## Correlator / Synchronizer

Modelled from the spec: §4.3 — the four upsert rules.  The per-key
update functions `gS` / `gT` receive the currently stored row (if any)
and produce the row written back. -/

/-- Modelled from the spec: §4.3 `SessionUpdate` — upsert by session_id;
last-activity and model fields always move to the incoming entry
(last-writer-wins in log order); first-seen is set on creation and never
changed afterwards. -/
def gS (u : SessE) : Option SessionRow → SessionRow
  | some r =>
      { r with
        lastActivityAt := u.timestamp
        modelProvider := u.provider
        modelName := u.modelName }
  | none =>
      { firstSeenAt := u.timestamp
        lastActivityAt := u.timestamp
        modelProvider := u.provider
        modelName := u.modelName }

/-- A tool-call table operation: a start or a result event. -/
inductive ToolOp where
  | start (e : StartE)
  | result (e : ResultE)
deriving DecidableEq, Repr

/-- Modelled from the spec: §4.3 `ToolCallStart` / `ToolCallResult`.
A start fills the start-half fields and sets status running, but never
regresses a terminal (completed/failed) status; a result fills the
result-half fields, sets status from the error flag, and on a missing
row creates a placeholder with only result fields populated.  Duration
is recomputed from the currently known started_at / completed_at. -/
def gT : ToolOp → Option ToolCallRow → ToolCallRow
  | .start e, v =>
      { (v.getD blankTool) with
        initiatingMessageId := some e.initiatingMessageId
        toolName := some e.toolName
        arguments := some e.arguments
        startedAt := some e.startedAt
        status :=
          if (v.getD blankTool).status.isTerminal then
            (v.getD blankTool).status
          else .running
        durationMs := recomputeDuration (some e.startedAt) (v.getD blankTool).completedAt }
  | .result e, v =>
      { (v.getD blankTool) with
        resultMessageId := some e.resultMessageId
        resultText := some e.resultText
        isError := some e.isError
        completedAt := some e.completedAt
        status := if e.isError then .failed else .completed
        durationMs := recomputeDuration (v.getD blankTool).startedAt (some e.completedAt) }

/-- Point update of a keyed table: write `f` of the current row at `k`. -/
def mapUpsert (m : String → Option V) (k : String) (f : Option V → V) :
    String → Option V :=
  fun q => if q = k then some (f (m k)) else m q

/-- The message row written for a `MessageAppend` entry. -/
def msgRowOf (e : MsgE) : MessageRow :=
  { messageId := e.messageId
    sessionId := e.sessionId
    role := e.role
    timestamp := e.timestamp
    contentText := e.contentText
    totalTokens := e.totalTokens }

/-- Whether a message with the given id is already stored. -/
def hasMsg (l : List MessageRow) (mid : String) : Bool :=
  l.any (fun r => r.messageId == mid)

/-- Modelled from the spec: §4.3 `MessageAppend` — upsert by message_id;
if the row already exists the operation is a no-op rather than an
overwrite, preserving the first-write values. -/
def appendMsg (l : List MessageRow) (e : MsgE) : List MessageRow :=
  if hasMsg l e.messageId then l else l ++ [msgRowOf e]

/-- Modelled from the spec: §4.3 — apply one decoded event to the store
with the upsert rules above.  Entries never touch the cursor map; the
cursor is advanced separately after the batch commits (§4.3, §3). -/
def applyEntry (s : Store) : Entry → Store
  | .sessionUpdate u =>
      { s with sessions := mapUpsert s.sessions u.sessionId (gS u) }
  | .messageAppend e =>
      { s with messages := appendMsg s.messages e }
  | .toolCallStart e =>
      { s with toolCalls := mapUpsert s.toolCalls e.toolCallId (gT (.start e)) }
  | .toolCallResult e =>
      { s with toolCalls := mapUpsert s.toolCalls e.toolCallId (gT (.result e)) }

/-- Modelled from the spec: §4.3 — apply a sequence of decoded events to
storage as a batch, in file order. -/
def applyBatch (s : Store) (b : List Entry) : Store :=
  b.foldl applyEntry s

/-- Modelled from the spec: §4.2 — a decode failure is reported and the
stream continues; only successfully decoded entries reach the store. -/
def applyDecoded (s : Store) : Except DecodeFailure Entry → Store
  | .ok e => applyEntry s e
  | .error _ => s

/-! ## Line processing loop

Modelled from the spec: §4.2 — decoding failures are reported but never
abort the stream; the malformed line is permanently skipped and counted,
and processing continues with the next line. -/

/-- Modelled from the spec: §4.2 — process one decoded line: a failure
increments the failure counter and leaves the store untouched, a decoded
entry is applied to the store. -/
def processLine (st : Store × Nat) (d : Except DecodeFailure Entry) : Store × Nat :=
  match d with
  | .ok e => (applyEntry st.1 e, st.2)
  | .error _ => (st.1, st.2 + 1)

/-- Modelled from the spec: §4.2 — process the decoded lines of a read
window in order, accumulating the store and the decode-failure count. -/
def processLines (st : Store × Nat) (ds : List (Except DecodeFailure Entry)) :
    Store × Nat :=
  ds.foldl processLine st

/-! ## Cursor handling and batch commit

Modelled from the spec: §3 Cursor, §4.1 truncation detection and
§4.3/§7(d) failure semantics.  A storage write failure aborts the whole
in-flight batch atomically (the transaction rolls back, the cursor is
not advanced); a successful batch commits every entry and then advances
the file's cursor to the end offset of the read region
(commit-then-advance).  The truncation check compares the current file
size with the stored offset and resets the offset to zero when the file
shrank below it. -/

/-- Set the stored cursor of one file. -/
def setCursor (s : Store) (p : String) (n : Nat) : Store :=
  { s with cursors := fun q => if q = p then n else s.cursors q }

/-- Modelled from the spec: §4.3/§4.1 — the operations that touch the
stored state: committing a read batch (which may fail at the storage
layer), and the truncation/rotation offset reset. -/
inductive SyncOp where
  | commitBatch (path : String) (entries : List Entry) (endOffset : Nat)
      (writeFailed : Bool)
  | truncationReset (path : String) (fileSize : Nat)

/-- Modelled from the spec: §4.3 failure semantics and §4.1 truncation
handling.  A failed batch aborts atomically: no entry write survives and
the cursor is untouched, so the resulting state is exactly the state
before the batch.  A successful batch applies every entry and then
advances the cursor to the batch's end offset.  A truncation reset sets
the cursor to zero when the file size dropped below the stored offset. -/
def runSyncOp (s : Store) : SyncOp → Store
  | .commitBatch p es off failed =>
      if failed then s else setCursor (applyBatch s es) p off
  | .truncationReset p size =>
      if size < s.cursors p then setCursor s p 0 else s

/-! ## Incremental Reader

Modelled from the spec: §4.1 — given `(path, fromOffset)` return the raw
lines whose bytes lie strictly beyond `fromOffset` plus the new end
offset; a trailing partial line (read region not ending in a newline) is
withheld and the offset is not advanced past its start.  The file is
modelled as the list of its characters. -/

/-- Modelled from the spec: §4.1 — split a character region into its
complete (newline-terminated) lines and the number of characters
consumed; a trailing segment with no newline is withheld. -/
def splitComplete : List Char → List (List Char) × Nat
  | [] => ([], 0)
  | c :: cs =>
      if c = '\n' then
        ((splitComplete cs).1.cons [], (splitComplete cs).2 + 1)
      else
        match splitComplete cs with
        | ([], _) => ([], 0)
        | (l :: ls, n) => ((c :: l) :: ls, n + 1)

/-- Modelled from the spec: §4.1 Reader contract — read the file from
`fromOffset`, returning the complete lines beyond it and the new end
offset. -/
def readFrom (file : List Char) (fromOffset : Nat) :
    List (List Char) × Nat :=
  ((splitComplete (file.drop fromOffset)).1,
    fromOffset + (splitComplete (file.drop fromOffset)).2)

/-- Each emitted line re-terminated with its newline, concatenated: the
exact bytes the reader consumed. -/
def joinNL : List (List Char) → List Char
  | [] => []
  | l :: ls => l ++ '\n' :: joinNL ls

/-! ## Query/API client surface

Embedded from `src/frontend/src/services/api.ts`: the requests the query
client can issue against the sessions, messages and tool-calls
endpoints, with their HTTP methods. -/

inductive HttpMethod where
  | get
  | post
  | put
  | delete
deriving DecidableEq, BEq, Repr

structure ApiRequest where
  endpoint : String
  method : HttpMethod
deriving DecidableEq, Repr

/-- From `api.ts` `sessionsAPI`: list, get, getMessages, getToolCalls. -/
def sessionsAPIRequests : List ApiRequest :=
  [⟨"/sessions/", .get⟩,
   ⟨"/sessions/{sessionId}", .get⟩,
   ⟨"/sessions/{sessionId}/messages/", .get⟩,
   ⟨"/sessions/{sessionId}/tool-calls/", .get⟩]

/-- From `api.ts` `messagesAPI`: list, get. -/
def messagesAPIRequests : List ApiRequest :=
  [⟨"/messages/", .get⟩,
   ⟨"/messages/{messageId}", .get⟩]

/-- From `api.ts` `toolCallsAPI`: list, get. -/
def toolCallsAPIRequests : List ApiRequest :=
  [⟨"/tool-calls/", .get⟩,
   ⟨"/tool-calls/{toolCallId}", .get⟩]

/-! ## ActivityTab status handling

Embedded from `src/frontend/src/pages/ActivityTab.tsx`. -/

/-- The status values the write side can store, per spec §3:
status ∈ {running, completed, failed} (see `ToolStatus`). -/
def toolCallStatusDomain : List String :=
  ["running", "completed", "failed"]

/-- From `ActivityTab.tsx` (tool-call status `FilterSelect` options):
the values the read-side status filter offers for tool calls. -/
def toolCallStatusFilterValues : List String :=
  ["completed", "pending", "failed"]

/-- From `ActivityTab.tsx` `StatusBadge`: the badge renders three looks —
ok for completed, err for error/failed, and a waiting look otherwise. -/
def statusBadgeKind (status : String) : String :=
  if status = "completed" then "ok"
  else if status = "error" ∨ status = "failed" then "err"
  else "waiting"

/-! ## Monitor timeline

Embedded from `src/frontend/src/pages/Monitor.tsx`. -/

/-- An event row as used by the Monitor timeline: session id and
`started_at` in epoch milliseconds (`new Date(...).getTime()`). -/
structure MonitorEvent where
  session_id : String
  started_at : Int
deriving DecidableEq, Repr

/-- Lookup in a JS-`Map`-style association list. -/
def alookup (m : List (String × Int)) (k : String) : Option Int :=
  (m.find? (fun p => p.1 == k)).map (fun p => p.2)

/-- `Map.set`: update in place when the key is present, append
otherwise. -/
def aset (m : List (String × Int)) (k : String) (v : Int) :
    List (String × Int) :=
  if m.any (fun p => p.1 == k) then
    m.map (fun p => if p.1 == k then (k, v) else p)
  else m ++ [(k, v)]

/-- From `Monitor.tsx` `classifyActiveSessions` (loop body): with
`prev = map.get(sid) ?? 0`, record the event time when `t > prev`. -/
def latestStep (m : List (String × Int)) (e : MonitorEvent) :
    List (String × Int) :=
  if (alookup m e.session_id).getD 0 < e.started_at then
    aset m e.session_id e.started_at
  else m

/-- From `Monitor.tsx` `classifyActiveSessions`: the per-session maximum
`started_at` over all events. -/
def latestPerSession (events : List MonitorEvent) : List (String × Int) :=
  events.foldl latestStep []

/-- From `Monitor.tsx` `classifyActiveSessions`: a session is active when
`now - t <= cutoffMs` for its most recent event time `t`. -/
def classifyActiveSessions (events : List MonitorEvent) (cutoffMs now : Int) :
    List String :=
  (((latestPerSession events).filter (fun p => now - p.2 ≤ cutoffMs)).map
    (fun p => p.1))

/-- The Monitor session filter selection. -/
inductive SessionFilter where
  | active
  | today
  | all
deriving DecidableEq, Repr

/-- A timeline row; only the session id matters for filtering. -/
structure TimelineRow where
  sessionId : String
deriving DecidableEq, Repr

/-- From `Monitor.tsx` `visibleRows`: filter `allRows` by the selected
session set; an empty 'active' selection falls back to the 'today' set,
and an empty fallback (or an empty 'today' selection) falls back to all
rows. -/
def visibleRows (allRows : List TimelineRow) (f : SessionFilter)
    (activeIds todayIds : String → Bool) : List TimelineRow :=
  match f with
  | .all => allRows
  | .active =>
      if (allRows.filter (fun r => activeIds r.sessionId)).isEmpty then
        if (allRows.filter (fun r => todayIds r.sessionId)).isEmpty then
          allRows
        else allRows.filter (fun r => todayIds r.sessionId)
      else allRows.filter (fun r => activeIds r.sessionId)
  | .today =>
      if (allRows.filter (fun r => todayIds r.sessionId)).isEmpty then
        allRows
      else allRows.filter (fun r => todayIds r.sessionId)

/-! ## Generic keyed-fold lemmas

A batch acts on each keyed table as a fold of point updates
(`mapUpsert`); on a single key this is a chain of row updates. -/

/-- Chain the per-row update functions of a list of operations over one
key's current row. -/
def chainG (g : Op → Option V → V) (l : List Op) (v : Option V) : Option V :=
  l.foldl (fun v o => some (g o v)) v

/-- Fold a list of keyed operations over a table. -/
def kfoldG (key : Op → String) (g : Op → Option V → V) (l : List Op)
    (m : String → Option V) : String → Option V :=
  l.foldl (fun m o => mapUpsert m (key o) (g o)) m

theorem kfoldG_lookup (key : Op → String) (g : Op → Option V → V)
    (l : List Op) (m : String → Option V) (k : String) :
    kfoldG key g l m k = chainG g (l.filter (fun o => key o == k)) (m k) := by
  induction l generalizing m with
  | nil => rfl
  | cons o t ih =>
    show kfoldG key g t (mapUpsert m (key o) (g o)) k = _
    rw [ih]
    by_cases h : key o = k
    · subst h
      simp [mapUpsert, List.filter_cons, chainG]
    · have hne : k ≠ key o := fun hk => h hk.symm
      have hb : (key o == k) = false := by
        simp [h]
      simp [mapUpsert, List.filter_cons, hb, if_neg hne]

theorem kfoldG_replay (key : Op → String) (g : Op → Option V → V)
    (habs : ∀ (l : List Op) (v : Option V),
      chainG g l (chainG g l v) = chainG g l v)
    (l : List Op) (m : String → Option V) :
    kfoldG key g l (kfoldG key g l m) = kfoldG key g l m := by
  funext k
  simp only [kfoldG_lookup]
  exact habs _ _

/-! ## Session-table characterization -/

/-- The last element of `a :: l`. -/
def lastD (a : α) (l : List α) : α :=
  l.foldl (fun _ x => x) a

theorem lastD_cons (a x : α) (t : List α) : lastD a (x :: t) = lastD x t := rfl

/-- Closed form of a chain of `SessionUpdate`s on one session's row:
first-seen comes from the stored row or the first update, the remaining
fields from the last update. -/
def charS (v : Option SessionRow) : List SessE → Option SessionRow
  | [] => v
  | u :: rest =>
      some
        { firstSeenAt :=
            match v with
            | some r => r.firstSeenAt
            | none => u.timestamp
          lastActivityAt := (lastD u rest).timestamp
          modelProvider := (lastD u rest).provider
          modelName := (lastD u rest).modelName }

theorem charS_step (v : Option SessionRow) (u : SessE) (t : List SessE) :
    charS (some (gS u v)) t = charS v (u :: t) := by
  cases t with
  | nil => cases v <;> rfl
  | cons x xs => cases v <;> rfl

theorem chainG_charS (l : List SessE) (v : Option SessionRow) :
    chainG gS l v = charS v l := by
  induction l generalizing v with
  | nil => rfl
  | cons u t ih =>
    show chainG gS t (some (gS u v)) = _
    rw [ih, charS_step]

theorem charS_absorb (l : List SessE) (v : Option SessionRow) :
    charS (charS v l) l = charS v l := by
  cases l with
  | nil => rfl
  | cons u t => rfl

theorem chainS_absorb (l : List SessE) (v : Option SessionRow) :
    chainG gS l (chainG gS l v) = chainG gS l v := by
  rw [chainG_charS, chainG_charS, charS_absorb]

/-! ## Tool-call-table characterization -/

/-- The key of a tool-call table operation. -/
def toolKey : ToolOp → String
  | .start e => e.toolCallId
  | .result e => e.toolCallId

/-- The last start event among a list of tool operations. -/
def lastStart (l : List ToolOp) : Option StartE :=
  l.foldr
    (fun o a =>
      match a with
      | some x => some x
      | none =>
          match o with
          | .start e => some e
          | .result _ => none)
    none

/-- The last result event among a list of tool operations. -/
def lastResult (l : List ToolOp) : Option ResultE :=
  l.foldr
    (fun o a =>
      match a with
      | some x => some x
      | none =>
          match o with
          | .start _ => none
          | .result e => some e)
    none

/-- The started_at known after the operations: the last start's, else the
stored row's. -/
def charStartedAt (v : Option ToolCallRow) (ops : List ToolOp) : Option Nat :=
  match lastStart ops with
  | some e => some e.startedAt
  | none => (v.getD blankTool).startedAt

/-- The completed_at known after the operations: the last result's, else
the stored row's. -/
def charCompletedAt (v : Option ToolCallRow) (ops : List ToolOp) : Option Nat :=
  match lastResult ops with
  | some e => some e.completedAt
  | none => (v.getD blankTool).completedAt

/-- Closed form of a chain of start/result operations on one tool call's
row: start-half fields come from the last start (else the stored row),
result-half fields from the last result (else the stored row); the
status is set by the last result when there is one, otherwise it is the
stored status (running on a fresh row); the duration is recomputed from
the final started_at / completed_at. -/
def charT (v : Option ToolCallRow) : List ToolOp → Option ToolCallRow
  | [] => v
  | o :: t =>
      some
        { initiatingMessageId :=
            match lastStart (o :: t) with
            | some e => some e.initiatingMessageId
            | none => (v.getD blankTool).initiatingMessageId
          toolName :=
            match lastStart (o :: t) with
            | some e => some e.toolName
            | none => (v.getD blankTool).toolName
          arguments :=
            match lastStart (o :: t) with
            | some e => some e.arguments
            | none => (v.getD blankTool).arguments
          startedAt := charStartedAt v (o :: t)
          resultMessageId :=
            match lastResult (o :: t) with
            | some e => some e.resultMessageId
            | none => (v.getD blankTool).resultMessageId
          resultText :=
            match lastResult (o :: t) with
            | some e => some e.resultText
            | none => (v.getD blankTool).resultText
          isError :=
            match lastResult (o :: t) with
            | some e => some e.isError
            | none => (v.getD blankTool).isError
          completedAt := charCompletedAt v (o :: t)
          status :=
            match lastResult (o :: t) with
            | some e => if e.isError then .failed else .completed
            | none => (v.getD blankTool).status
          durationMs :=
            recomputeDuration (charStartedAt v (o :: t)) (charCompletedAt v (o :: t)) }

theorem statusKeep (st : ToolStatus) :
    (if st.isTerminal then st else .running) = st := by
  cases st <;> rfl

theorem lastStart_cons (o : ToolOp) (t : List ToolOp) :
    lastStart (o :: t) =
      match lastStart t with
      | some x => some x
      | none =>
          match o with
          | .start e => some e
          | .result _ => none := rfl

theorem lastResult_cons (o : ToolOp) (t : List ToolOp) :
    lastResult (o :: t) =
      match lastResult t with
      | some x => some x
      | none =>
          match o with
          | .start _ => none
          | .result e => some e := rfl

theorem charT_step (v : Option ToolCallRow) (o : ToolOp) (t : List ToolOp) :
    charT (some (gT o v)) t = charT v (o :: t) := by
  cases t with
  | nil =>
    cases o with
    | start e =>
      simp [charT, gT, charStartedAt, charCompletedAt, lastStart, lastResult,
        statusKeep, recomputeDuration]
    | result e =>
      simp [charT, gT, charStartedAt, charCompletedAt, lastStart, lastResult,
        statusKeep, recomputeDuration]
  | cons x xs =>
    cases o with
    | start e =>
      cases hs : lastStart (x :: xs) <;> cases hr : lastResult (x :: xs) <;>
        simp [charT, gT, charStartedAt, charCompletedAt,
          lastStart_cons (ToolOp.start e), lastResult_cons (ToolOp.start e),
          hs, hr, statusKeep]
    | result e =>
      cases hs : lastStart (x :: xs) <;> cases hr : lastResult (x :: xs) <;>
        simp [charT, gT, charStartedAt, charCompletedAt,
          lastStart_cons (ToolOp.result e), lastResult_cons (ToolOp.result e),
          hs, hr, statusKeep]

theorem chainG_charT (l : List ToolOp) (v : Option ToolCallRow) :
    chainG gT l v = charT v l := by
  induction l generalizing v with
  | nil => rfl
  | cons o t ih =>
    show chainG gT t (some (gT o v)) = _
    rw [ih, charT_step]

theorem charT_absorb (l : List ToolOp) (v : Option ToolCallRow) :
    charT (charT v l) l = charT v l := by
  cases l with
  | nil => rfl
  | cons o t =>
    cases hs : lastStart (o :: t) <;> cases hr : lastResult (o :: t) <;>
      simp [charT, charStartedAt, charCompletedAt, hs, hr]

theorem chainT_absorb (l : List ToolOp) (v : Option ToolCallRow) :
    chainG gT l (chainG gT l v) = chainG gT l v := by
  rw [chainG_charT, chainG_charT, charT_absorb]

/-! ## Componentwise action of a batch -/

/-- The session updates of a batch. -/
def sessOps (b : List Entry) : List SessE :=
  b.filterMap fun e =>
    match e with
    | .sessionUpdate u => some u
    | _ => none

/-- The message appends of a batch. -/
def msgEvs (b : List Entry) : List MsgE :=
  b.filterMap fun e =>
    match e with
    | .messageAppend x => some x
    | _ => none

/-- The tool-call operations of a batch. -/
def toolOps (b : List Entry) : List ToolOp :=
  b.filterMap fun e =>
    match e with
    | .toolCallStart x => some (.start x)
    | .toolCallResult x => some (.result x)
    | _ => none

theorem applyBatch_sessions (s : Store) (b : List Entry) :
    (applyBatch s b).sessions =
      kfoldG (fun u => u.sessionId) gS (sessOps b) s.sessions := by
  induction b generalizing s with
  | nil => rfl
  | cons e t ih =>
    show (applyBatch (applyEntry s e) t).sessions = _
    rw [ih]
    cases e <;> rfl

theorem applyBatch_toolCalls (s : Store) (b : List Entry) :
    (applyBatch s b).toolCalls =
      kfoldG toolKey gT (toolOps b) s.toolCalls := by
  induction b generalizing s with
  | nil => rfl
  | cons e t ih =>
    show (applyBatch (applyEntry s e) t).toolCalls = _
    rw [ih]
    cases e <;> rfl

theorem applyBatch_messages (s : Store) (b : List Entry) :
    (applyBatch s b).messages = (msgEvs b).foldl appendMsg s.messages := by
  induction b generalizing s with
  | nil => rfl
  | cons e t ih =>
    show (applyBatch (applyEntry s e) t).messages = _
    rw [ih]
    cases e <;> rfl

theorem applyBatch_cursors (s : Store) (b : List Entry) :
    (applyBatch s b).cursors = s.cursors := by
  induction b generalizing s with
  | nil => rfl
  | cons e t ih =>
    show (applyBatch (applyEntry s e) t).cursors = _
    rw [ih]
    cases e <;> rfl

/-! ## Message-table replay -/

theorem hasMsg_appendMsg_mono (l : List MessageRow) (e : MsgE) (mid : String)
    (h : hasMsg l mid = true) : hasMsg (appendMsg l e) mid = true := by
  unfold appendMsg
  split
  · exact h
  · simp [hasMsg, List.any_append] at h ⊢
    exact Or.inl h

theorem hasMsg_appendMsg_self (l : List MessageRow) (e : MsgE) :
    hasMsg (appendMsg l e) e.messageId = true := by
  unfold appendMsg
  split
  · assumption
  · simp [hasMsg, List.any_append, msgRowOf]

theorem msgFold_mono (ops : List MsgE) (l : List MessageRow) (mid : String)
    (h : hasMsg l mid = true) :
    hasMsg (ops.foldl appendMsg l) mid = true := by
  induction ops generalizing l with
  | nil => exact h
  | cons o t ih => exact ih _ (hasMsg_appendMsg_mono _ _ _ h)

theorem msgFold_has (ops : List MsgE) (l : List MessageRow) (e : MsgE)
    (h : e ∈ ops) :
    hasMsg (ops.foldl appendMsg l) e.messageId = true := by
  induction ops generalizing l with
  | nil => cases h
  | cons o t ih =>
    rcases List.mem_cons.mp h with h1 | hm
    · subst h1
      exact msgFold_mono t (appendMsg l e) e.messageId (hasMsg_appendMsg_self l e)
    · exact ih _ hm

theorem msgFold_noop (ops : List MsgE) (l : List MessageRow)
    (h : ∀ e ∈ ops, hasMsg l e.messageId = true) :
    ops.foldl appendMsg l = l := by
  induction ops with
  | nil => rfl
  | cons o t ih =>
    have h1 : appendMsg l o = l := by
      unfold appendMsg
      rw [h o (List.mem_cons_self o t)]
      simp
    show t.foldl appendMsg (appendMsg l o) = l
    rw [h1]
    exact ih fun e he => h e (List.mem_cons_of_mem o he)

theorem msgFold_replay (ops : List MsgE) (l : List MessageRow) :
    ops.foldl appendMsg (ops.foldl appendMsg l) = ops.foldl appendMsg l :=
  msgFold_noop _ _ fun e he => msgFold_has _ _ e he

/-! ## Batch idempotence -/

theorem store_eq (s t : Store)
    (h1 : s.sessions = t.sessions) (h2 : s.messages = t.messages)
    (h3 : s.toolCalls = t.toolCalls) (h4 : s.cursors = t.cursors) :
    s = t := by
  cases s
  cases t
  simp_all

/-- Replaying a committed batch reproduces exactly the committed state. -/
theorem batch_idem (s : Store) (b : List Entry) :
    applyBatch (applyBatch s b) b = applyBatch s b := by
  apply store_eq
  · simp only [applyBatch_sessions]
    exact kfoldG_replay _ _ chainS_absorb _ _
  · simp only [applyBatch_messages]
    exact msgFold_replay _ _
  · simp only [applyBatch_toolCalls]
    exact kfoldG_replay _ _ chainT_absorb _ _
  · simp only [applyBatch_cursors]

/-! ## Terminal-status preservation -/

theorem applyEntry_terminal (s : Store) (ent : Entry) (k : String)
    (r : ToolCallRow) (h : s.toolCalls k = some r)
    (ht : r.status.isTerminal = true) :
    ∃ r', (applyEntry s ent).toolCalls k = some r' ∧
      r'.status.isTerminal = true := by
  cases ent with
  | sessionUpdate u => exact ⟨r, h, ht⟩
  | messageAppend e => exact ⟨r, h, ht⟩
  | toolCallStart e =>
    by_cases hk : k = e.toolCallId
    · subst hk
      refine ⟨gT (.start e) (s.toolCalls e.toolCallId), ?_, ?_⟩
      · simp [applyEntry, mapUpsert]
      · simp [gT, h, ht]
    · exact ⟨r, by simpa [applyEntry, mapUpsert, hk] using h, ht⟩
  | toolCallResult e =>
    by_cases hk : k = e.toolCallId
    · subst hk
      refine ⟨gT (.result e) (s.toolCalls e.toolCallId), ?_, ?_⟩
      · simp [applyEntry, mapUpsert]
      · cases he : e.isError <;> simp [gT, he, ToolStatus.isTerminal]
    · exact ⟨r, by simpa [applyEntry, mapUpsert, hk] using h, ht⟩

theorem applyBatch_terminal (b : List Entry) (s : Store) (k : String)
    (r : ToolCallRow) (h : s.toolCalls k = some r)
    (ht : r.status.isTerminal = true) :
    ∃ r', (applyBatch s b).toolCalls k = some r' ∧
      r'.status.isTerminal = true := by
  induction b generalizing s r with
  | nil => exact ⟨r, h, ht⟩
  | cons ent t ih =>
    obtain ⟨r', h', ht'⟩ := applyEntry_terminal s ent k r h ht
    exact ih (applyEntry s ent) r' h' ht'

/-! ## Incremental Reader lemmas -/

theorem splitComplete_spec (cs : List Char) :
    joinNL (splitComplete cs).1 = cs.take (splitComplete cs).2 ∧
    (splitComplete cs).2 ≤ cs.length ∧
    '\n' ∉ cs.drop (splitComplete cs).2 ∧
    ((splitComplete cs).1 = [] → (splitComplete cs).2 = 0) := by
  induction cs with
  | nil => simp [splitComplete, joinNL]
  | cons c t ih =>
    obtain ⟨ih1, ih2, ih3, ih4⟩ := ih
    by_cases hc : c = '\n'
    · subst hc
      refine ⟨?_, ?_, ?_, ?_⟩
      · simp [splitComplete, joinNL, ih1]
      · simp [splitComplete]
        omega
      · simpa [splitComplete] using ih3
      · simp [splitComplete]
    · rcases hsc : splitComplete t with ⟨ls, m⟩
      rw [hsc] at ih1 ih2 ih3 ih4
      cases ls with
      | nil =>
        have hm : m = 0 := ih4 rfl
        subst hm
        refine ⟨?_, ?_, ?_, ?_⟩
        · simp [splitComplete, hc, hsc, joinNL]
        · simp [splitComplete, hc, hsc]
        · simp only [splitComplete, if_neg hc, hsc, List.drop_zero]
          intro hmem
          rcases List.mem_cons.mp hmem with h1 | h2
          · exact hc h1.symm
          · exact ih3 (by simpa using h2)
        · simp [splitComplete, hc, hsc]
      | cons l lrest =>
        refine ⟨?_, ?_, ?_, ?_⟩
        · simpa [splitComplete, hc, hsc, joinNL] using ih1
        · simp [splitComplete, hc, hsc]
          omega
        · simpa [splitComplete, hc, hsc] using ih3
        · simp [splitComplete, hc, hsc]

theorem splitComplete_prepend (tail ext : List Char) (l : List Char)
    (ls : List (List Char)) (hnl : '\n' ∉ tail)
    (h : (splitComplete ext).1 = l :: ls) :
    (splitComplete (tail ++ ext)).1 = (tail ++ l) :: ls := by
  induction tail with
  | nil => simpa using h
  | cons c t ih =>
    have hc : c ≠ '\n' := fun hcc => hnl (hcc ▸ List.mem_cons_self c t)
    have ht : '\n' ∉ t := fun hm => hnl (List.mem_cons_of_mem c hm)
    have ih' := ih ht
    rcases hsc : splitComplete (t ++ ext) with ⟨ls', m⟩
    rw [hsc] at ih'
    have ih'' : ls' = (t ++ l) :: ls := ih'
    subst ih''
    simp [splitComplete, if_neg hc, hsc]

/-! ## Monitor `classifyActiveSessions` lemmas -/

theorem alookup_cons (p : String × Int) (m : List (String × Int)) (k : String) :
    alookup (p :: m) k = if p.1 == k then some p.2 else alookup m k := by
  unfold alookup
  cases hp : p.1 == k <;> simp [List.find?, hp]

theorem alookup_set_present (m : List (String × Int)) (k : String) (v : Int)
    (h : m.any (fun p => p.1 == k) = true) :
    alookup (m.map (fun p => if p.1 == k then (k, v) else p)) k = some v := by
  induction m with
  | nil => simp at h
  | cons p t ih =>
    cases hp : p.1 == k
    · have hp' : ¬ p.1 = k := by simpa using hp
      have h' : t.any (fun p => p.1 == k) = true := by
        simpa [hp] using h
      simpa [alookup_cons, hp, hp'] using ih h'
    · have hp' : p.1 = k := by simpa using hp
      simp [alookup_cons, hp, hp']

theorem alookup_set_ne (m : List (String × Int)) (k k' : String) (v : Int)
    (hne : k' ≠ k) :
    alookup (m.map (fun p => if p.1 == k then (k, v) else p)) k' =
      alookup m k' := by
  have hkk : ¬ k = k' := fun hh => hne hh.symm
  induction m with
  | nil => rfl
  | cons p t ih =>
    cases hp : p.1 == k
    · have hp' : ¬ p.1 = k := by simpa using hp
      simp only [beq_iff_eq] at ih
      simp [alookup_cons, hp, hp', ih]
    · have hp1 : p.1 = k := by simpa using hp
      have hp2 : ¬ p.1 = k' := by
        rw [hp1]
        exact hkk
      simpa [alookup_cons, hp, hp1, hp2, hkk] using ih

theorem alookup_append_single (m : List (String × Int)) (k k' : String)
    (v : Int) :
    alookup (m ++ [(k, v)]) k' =
      match alookup m k' with
      | some w => some w
      | none => if k == k' then some v else none := by
  induction m with
  | nil => cases hk : k == k' <;> simp [alookup_cons, alookup, hk]
  | cons p t ih =>
    cases hp : p.1 == k' <;> simp [alookup_cons, hp, ih]

theorem alookup_absent (m : List (String × Int)) (k : String)
    (h : m.any (fun p => p.1 == k) = false) : alookup m k = none := by
  induction m with
  | nil => rfl
  | cons p t ih =>
    cases hp : p.1 == k
    · have h' : t.any (fun p => p.1 == k) = false := by
        simpa [hp] using h
      simpa [alookup_cons, hp] using ih h'
    · simp [hp] at h

theorem alookup_aset_self (m : List (String × Int)) (k : String) (v : Int) :
    alookup (aset m k v) k = some v := by
  unfold aset
  by_cases h : m.any (fun p => p.1 == k) = true
  · rw [if_pos h]
    exact alookup_set_present m k v h
  · have hf : m.any (fun p => p.1 == k) = false := Bool.eq_false_iff.mpr h
    rw [if_neg h, alookup_append_single, alookup_absent m k hf]
    simp

theorem alookup_aset_ne (m : List (String × Int)) (k k' : String) (v : Int)
    (hne : k' ≠ k) : alookup (aset m k v) k' = alookup m k' := by
  have hkk : (k == k') = false := by
    simp only [beq_eq_false_iff_ne, ne_eq]
    exact fun hh => hne hh.symm
  unfold aset
  by_cases h : m.any (fun p => p.1 == k) = true
  · rw [if_pos h]
    exact alookup_set_ne m k k' v hne
  · rw [if_neg h, alookup_append_single, hkk]
    cases alookup m k' <;> simp

/-- The maximum `started_at` among the events of one session, starting
from `b` (the `?? 0` default in the source). -/
def maxFrom (b : Int) (events : List MonitorEvent) (sid : String) : Int :=
  events.foldl
    (fun a e =>
      if e.session_id = sid then
        (if a < e.started_at then e.started_at else a)
      else a)
    b

theorem maxFrom_cons (b : Int) (e : MonitorEvent) (t : List MonitorEvent)
    (sid : String) :
    maxFrom b (e :: t) sid =
      maxFrom
        (if e.session_id = sid then
          (if b < e.started_at then e.started_at else b)
        else b) t sid := rfl

theorem maxFrom_init_le (events : List MonitorEvent) :
    ∀ (b : Int) (sid : String), b ≤ maxFrom b events sid := by
  induction events with
  | nil => intro b sid; exact le_refl b
  | cons e t ih =>
    intro b sid
    have hb : b ≤
        (if e.session_id = sid then
          (if b < e.started_at then e.started_at else b)
        else b) := by
      by_cases h1 : e.session_id = sid
      · by_cases h2 : b < e.started_at
        · simp [h1, h2]
          omega
        · simp [h1, h2]
      · simp [h1]
    exact le_trans hb (ih _ sid)

theorem maxFrom_mem_le (events : List MonitorEvent) :
    ∀ (b : Int) (sid : String) (e : MonitorEvent), e ∈ events →
      e.session_id = sid → e.started_at ≤ maxFrom b events sid := by
  induction events with
  | nil =>
    intro b sid e he
    cases he
  | cons x t ih =>
    intro b sid e he hsid
    rcases List.mem_cons.mp he with h1 | h2
    · subst h1
      have hb : e.started_at ≤
          (if e.session_id = sid then
            (if b < e.started_at then e.started_at else b)
          else b) := by
        by_cases h2 : b < e.started_at
        · simp [hsid, h2]
        · simp [hsid, h2]
          omega
      exact le_trans hb (maxFrom_init_le t _ sid)
    · exact ih _ sid e h2 hsid

theorem maxFrom_achieved (events : List MonitorEvent) :
    ∀ (b : Int) (sid : String), maxFrom b events sid = b ∨
      ∃ e ∈ events, e.session_id = sid ∧ maxFrom b events sid = e.started_at := by
  induction events with
  | nil => intro b sid; exact Or.inl rfl
  | cons x t ih =>
    intro b sid
    rcases ih
        (if x.session_id = sid then
          (if b < x.started_at then x.started_at else b)
        else b) sid with h | ⟨e, he, hsid, hval⟩
    · by_cases h1 : x.session_id = sid
      · by_cases h2 : b < x.started_at
        · right
          refine ⟨x, List.mem_cons_self x t, h1, ?_⟩
          rw [maxFrom_cons, h, if_pos h1, if_pos h2]
        · left
          rw [maxFrom_cons, h, if_pos h1, if_neg h2]
      · left
        rw [maxFrom_cons, h, if_neg h1]
    · right
      exact ⟨e, List.mem_cons_of_mem x he, hsid, hval⟩

theorem latest_lookup (events : List MonitorEvent) :
    ∀ (m : List (String × Int)) (sid : String),
    alookup (events.foldl latestStep m) sid =
      match alookup m sid with
      | some b => some (maxFrom b events sid)
      | none =>
          if 0 < maxFrom 0 events sid then some (maxFrom 0 events sid)
          else none := by
  induction events with
  | nil =>
    intro m sid
    cases hm : alookup m sid <;> simp [maxFrom, hm]
  | cons e t ih =>
    intro m sid
    show alookup (t.foldl latestStep (latestStep m e)) sid = _
    rw [ih (latestStep m e) sid]
    simp only [maxFrom_cons]
    by_cases h1 : e.session_id = sid
    · subst h1
      unfold latestStep
      cases hm : alookup m e.session_id with
      | some b =>
        simp only [hm, Option.getD_some]
        by_cases h2 : b < e.started_at
        · rw [if_pos h2, alookup_aset_self]
          simp [h2]
        · rw [if_neg h2, hm]
          simp [h2]
      | none =>
        simp only [hm, Option.getD_none]
        by_cases h2 : (0 : Int) < e.started_at
        · rw [if_pos h2, alookup_aset_self]
          have hpos : 0 < maxFrom e.started_at t e.session_id :=
            lt_of_lt_of_le h2 (maxFrom_init_le t _ _)
          simp [h2, hpos]
        · rw [if_neg h2, hm]
          simp [h2]
    · have hl : alookup (latestStep m e) sid = alookup m sid := by
        unfold latestStep
        by_cases hc : (alookup m e.session_id).getD 0 < e.started_at
        · rw [if_pos hc]
          exact alookup_aset_ne m e.session_id sid e.started_at
            (fun hh => h1 hh.symm)
        · rw [if_neg hc]
      rw [hl]
      simp [h1]

/-- Keys of the association list are pairwise distinct. -/
def nodupKeys (m : List (String × Int)) : Prop :=
  (m.map Prod.fst).Nodup

theorem nodup_aset (m : List (String × Int)) (k : String) (v : Int)
    (h : nodupKeys m) : nodupKeys (aset m k v) := by
  unfold aset
  by_cases hp : m.any (fun p => p.1 == k) = true
  · rw [if_pos hp]
    unfold nodupKeys
    have hkeys :
        (m.map (fun p => if p.1 == k then (k, v) else p)).map Prod.fst =
          m.map Prod.fst := by
      rw [List.map_map]
      refine List.map_congr_left ?_
      intro p _
      cases hpk : p.1 == k
      · have hne : ¬ p.1 = k := by simpa using hpk
        simp [hne]
      · have heq : p.1 = k := by simpa using hpk
        simp [heq]
    rw [hkeys]
    exact h
  · rw [if_neg hp]
    have hf : m.any (fun p => p.1 == k) = false := Bool.eq_false_iff.mpr hp
    have hnotin : k ∉ m.map Prod.fst := by
      intro hk
      rcases List.mem_map.mp hk with ⟨p, hpm, hfst⟩
      have := List.any_eq_false.mp hf p hpm
      simp [hfst] at this
    unfold nodupKeys at h ⊢
    simp [List.nodup_append, hnotin]
    exact h

theorem nodup_latest (events : List MonitorEvent) :
    ∀ m, nodupKeys m → nodupKeys (events.foldl latestStep m) := by
  induction events with
  | nil => intro m h; exact h
  | cons e t ih =>
    intro m h
    refine ih (latestStep m e) ?_
    unfold latestStep
    by_cases hc : (alookup m e.session_id).getD 0 < e.started_at
    · rw [if_pos hc]
      exact nodup_aset m _ _ h
    · rw [if_neg hc]
      exact h

theorem mem_alookup (m : List (String × Int)) (h : nodupKeys m)
    (k : String) (v : Int) : (k, v) ∈ m ↔ alookup m k = some v := by
  induction m with
  | nil => simp [alookup]
  | cons p t ih =>
    have hnd : nodupKeys t := (List.nodup_cons.mp h).2
    have hhead : p.1 ∉ t.map Prod.fst := (List.nodup_cons.mp h).1
    cases hp : p.1 == k
    · have hp' : ¬ p.1 = k := by simpa using hp
      rw [alookup_cons, if_neg (by simpa using hp')]
      constructor
      · intro hm
        rcases List.mem_cons.mp hm with h1 | h2
        · exact absurd (congrArg Prod.fst h1.symm) hp'
        · exact (ih hnd).mp h2
      · intro hl
        exact List.mem_cons_of_mem p ((ih hnd).mpr hl)
    · have hp' : p.1 = k := by simpa using hp
      rw [alookup_cons, if_pos hp]
      constructor
      · intro hm
        rcases List.mem_cons.mp hm with h1 | h2
        · rw [← h1]
        · exfalso
          apply hhead
          rw [hp']
          exact List.mem_map.mpr ⟨(k, v), h2, rfl⟩
      · intro hl
        have hv : v = p.2 := by
          injection hl with hl'
          exact hl'.symm
        have hpair : p = (k, v) := by
          cases p
          simp_all
        exact hpair ▸ List.mem_cons_self p t

theorem mem_classify_iff (events : List MonitorEvent)
    (cutoffMs now : Int) (sid : String) :
    sid ∈ classifyActiveSessions events cutoffMs now ↔
      ∃ t, alookup (latestPerSession events) sid = some t ∧
        now - t ≤ cutoffMs := by
  have hnd : nodupKeys (latestPerSession events) :=
    nodup_latest events [] (by simp [nodupKeys])
  unfold classifyActiveSessions
  constructor
  · intro h
    rcases List.mem_map.mp h with ⟨p, hp, hfst⟩
    rcases List.mem_filter.mp hp with ⟨hmem, hcond⟩
    refine ⟨p.2, ?_, by simpa using hcond⟩
    rw [← hfst]
    exact (mem_alookup _ hnd p.1 p.2).mp hmem
  · rintro ⟨t, hl, hc⟩
    refine List.mem_map.mpr ⟨(sid, t), List.mem_filter.mpr ⟨?_, ?_⟩, rfl⟩
    · exact (mem_alookup _ hnd sid t).mpr hl
    · simpa using hc

/-- The rendered name of a stored tool-call status. -/
def ToolStatus.toName : ToolStatus → String
  | .running => "running"
  | .completed => "completed"
  | .failed => "failed"

/-- An empty store: no sessions, messages or tool calls, all cursors at
zero. -/
def emptyStore : Store :=
  { sessions := fun _ => none
    messages := []
    toolCalls := fun _ => none
    cursors := fun _ => 0 }

/-! ## Claims -/

/-- C1: applying the same decoded log line, or the same batch of decoded
events, twice to the store yields the same stored state as applying it
once, for all four event kinds (`applyDecoded` covers the raw-line path,
where the pure decoder maps equal lines to equal results); in
particular, re-applying a `MessageAppend` whose message_id is already
present is a no-op — it creates no duplicate row and changes no
committed value. -/
theorem claim1_apply_idempotent :
    (∀ (s : Store) (d : Except DecodeFailure Entry),
        applyDecoded (applyDecoded s d) d = applyDecoded s d) ∧
    (∀ (s : Store) (b : List Entry),
        applyBatch (applyBatch s b) b = applyBatch s b) ∧
    (∀ (s : Store) (e : MsgE), hasMsg s.messages e.messageId = true →
        applyEntry s (.messageAppend e) = s) := by
  refine ⟨?_, fun s b => batch_idem s b, ?_⟩
  · intro s d
    cases d with
    | error f => rfl
    | ok e => exact batch_idem s [e]
  · intro s e h
    show { s with messages := appendMsg s.messages e } = s
    rw [appendMsg, if_pos h]

/-- A concrete message event for the C1 witness. -/
def c1Msg : MsgE :=
  { messageId := "m1", sessionId := "s1", role := "user", timestamp := 5,
    contentText := "hello", totalTokens := 3 }

/-- A store that already holds the C1 witness message. -/
def c1Store : Store :=
  { emptyStore with messages := [msgRowOf c1Msg] }

/-- C1 witness: at a store already holding message m1, re-applying the
append is the identity. -/
theorem claim1_apply_idempotent_witness :
    hasMsg c1Store.messages c1Msg.messageId = true ∧
    applyEntry c1Store (.messageAppend c1Msg) = c1Store :=
  ⟨by decide, claim1_apply_idempotent.2.2 c1Store c1Msg (by decide)⟩

/-- A store whose cursor for "agent.jsonl" stands at 1000. -/
def c2Store : Store :=
  { emptyStore with cursors := fun q => if q = "agent.jsonl" then 1000 else 0 }

/-- C2 counterexample: the claim says the stored cursor is monotonically
non-decreasing across all operations, but the truncation/rotation check
(spec §4.1: file size below the stored offset resets the offset to zero)
decreases the cursor from 1000 to 0. -/
theorem claim2_counterexample :
    (runSyncOp c2Store (.truncationReset "agent.jsonl" 200)).cursors
        "agent.jsonl" <
      c2Store.cursors "agent.jsonl" := by
  simp [runSyncOp, c2Store, emptyStore, setCursor]

/-- C2 (amended): across batch-commit operations (whose end offset is at
least the file's current cursor, as the Reader only reads beyond it) the
stored cursor of every file is non-decreasing, and a batch whose storage
write failed aborts atomically: the resulting state is exactly the state
before the batch, cursor included.  The truncation reset is the sole
exception to monotonicity. -/
theorem claim2_cursor_monotone_and_atomic :
    (∀ (s : Store) (p : String) (es : List Entry) (off : Nat) (failed : Bool)
        (q : String), s.cursors p ≤ off →
        s.cursors q ≤ (runSyncOp s (.commitBatch p es off failed)).cursors q) ∧
    (∀ (s : Store) (p : String) (es : List Entry) (off : Nat),
        runSyncOp s (.commitBatch p es off true) = s) := by
  constructor
  · intro s p es off failed q hoff
    cases failed
    · show s.cursors q ≤ (setCursor (applyBatch s es) p off).cursors q
      unfold setCursor
      by_cases hq : q = p
      · subst hq
        simpa using hoff
      · simp [hq, applyBatch_cursors]
    · exact le_refl _
  · intro s p es off
    rfl

/-- C2 witness: a successful commit at offset 1200 does not decrease the
cursor of another file, and a failed commit leaves the store exactly as
it was. -/
theorem claim2_witness :
    c2Store.cursors "agent.jsonl" ≤ 1200 ∧
    c2Store.cursors "other" ≤
      (runSyncOp c2Store (.commitBatch "agent.jsonl" [] 1200 false)).cursors
        "other" ∧
    runSyncOp c2Store (.commitBatch "agent.jsonl" [] 1200 true) = c2Store :=
  ⟨by decide,
   claim2_cursor_monotone_and_atomic.1 c2Store "agent.jsonl" [] 1200 false
     "other" (by decide),
   claim2_cursor_monotone_and_atomic.2 c2Store "agent.jsonl" [] 1200⟩

/-- C3: once a tool call's stored status is terminal (completed/failed),
a subsequently processed ToolCallStart for the same tool_call_id leaves
the status exactly unchanged (never regressed to running), and after any
further sequence of applied events the status is still terminal. -/
theorem claim3_terminal_no_regress :
    (∀ (s : Store) (e : StartE) (r : ToolCallRow),
        s.toolCalls e.toolCallId = some r → r.status.isTerminal = true →
        ∃ r', (applyEntry s (.toolCallStart e)).toolCalls e.toolCallId =
            some r' ∧ r'.status = r.status) ∧
    (∀ (s : Store) (b : List Entry) (k : String) (r : ToolCallRow),
        s.toolCalls k = some r → r.status.isTerminal = true →
        ∃ r', (applyBatch s b).toolCalls k = some r' ∧
          r'.status.isTerminal = true) := by
  constructor
  · intro s e r h ht
    refine ⟨gT (.start e) (s.toolCalls e.toolCallId), ?_, ?_⟩
    · simp [applyEntry, mapUpsert]
    · simp [gT, h, ht]
  · intro s b k r h ht
    exact applyBatch_terminal b s k r h ht

/-- A completed tool-call row for the C3 witness. -/
def c3Row : ToolCallRow :=
  { blankTool with status := .completed, completedAt := some 50 }

/-- A store holding the completed tool call t1. -/
def c3Store : Store :=
  { emptyStore with toolCalls := fun k => if k = "t1" then some c3Row else none }

/-- A late start event for tool call t1. -/
def c3Start : StartE :=
  { toolCallId := "t1", initiatingMessageId := "m1", toolName := "exec",
    arguments := "ls", startedAt := 10 }

/-- C3 witness: a start arriving after t1 completed leaves its status
unchanged. -/
theorem claim3_terminal_no_regress_witness :
    c3Store.toolCalls c3Start.toolCallId = some c3Row ∧
    c3Row.status.isTerminal = true ∧
    ∃ r', (applyEntry c3Store (.toolCallStart c3Start)).toolCalls
        c3Start.toolCallId = some r' ∧ r'.status = c3Row.status :=
  ⟨by decide, by decide,
   claim3_terminal_no_regress.1 c3Store c3Start c3Row (by decide) (by decide)⟩

/-- C4: a ToolCallResult processed before its ToolCallStart (in two
separate single-event batches, `applyBatch` of one entry each being
`applyEntry`) first creates a placeholder row with only result fields,
and once the start is applied the same single row holds both the start
fields and the result fields; no other key of the tool-call table is
touched, and the opposite order ends in the same merged row. -/
theorem claim4_out_of_order_merge :
    ∀ (s : Store) (re : ResultE) (se : StartE),
      se.toolCallId = re.toolCallId →
      s.toolCalls re.toolCallId = none →
      (∃ p, (applyEntry s (.toolCallResult re)).toolCalls re.toolCallId =
          some p ∧
        p.startedAt = none ∧ p.initiatingMessageId = none ∧
        p.resultMessageId = some re.resultMessageId ∧
        p.status = (if re.isError then ToolStatus.failed else .completed)) ∧
      (∃ row,
        (applyEntry (applyEntry s (.toolCallResult re))
            (.toolCallStart se)).toolCalls re.toolCallId = some row ∧
        row.initiatingMessageId = some se.initiatingMessageId ∧
        row.toolName = some se.toolName ∧
        row.startedAt = some se.startedAt ∧
        row.resultMessageId = some re.resultMessageId ∧
        row.completedAt = some re.completedAt ∧
        row.status = (if re.isError then ToolStatus.failed else .completed) ∧
        row.durationMs =
          some ((re.completedAt : Int) - (se.startedAt : Int))) ∧
      (∀ k, k ≠ re.toolCallId →
        (applyEntry (applyEntry s (.toolCallResult re))
            (.toolCallStart se)).toolCalls k = s.toolCalls k) ∧
      (∃ row,
        (applyEntry (applyEntry s (.toolCallStart se))
            (.toolCallResult re)).toolCalls re.toolCallId = some row ∧
        row.initiatingMessageId = some se.initiatingMessageId ∧
        row.startedAt = some se.startedAt ∧
        row.resultMessageId = some re.resultMessageId ∧
        row.completedAt = some re.completedAt ∧
        row.status = (if re.isError then ToolStatus.failed else .completed) ∧
        row.durationMs =
          some ((re.completedAt : Int) - (se.startedAt : Int))) := by
  intro s re se hid h
  refine ⟨?_, ?_, ?_, ?_⟩
  · refine ⟨gT (.result re) (s.toolCalls re.toolCallId), ?_, ?_, ?_, ?_, ?_⟩
    · simp [applyEntry, mapUpsert]
    · simp [gT, h, blankTool]
    · simp [gT, h, blankTool]
    · simp [gT, h, blankTool]
    · simp [gT, h, blankTool]
  · refine ⟨gT (.start se)
      ((applyEntry s (.toolCallResult re)).toolCalls se.toolCallId),
      ?_, ?_, ?_, ?_, ?_, ?_, ?_, ?_⟩
    · simp [applyEntry, mapUpsert, hid]
    · simp [gT]
    · simp [gT]
    · simp [gT]
    · simp [applyEntry, mapUpsert, hid, gT, h, blankTool]
    · simp [applyEntry, mapUpsert, hid, gT, h, blankTool]
    · cases he : re.isError <;>
        simp [applyEntry, mapUpsert, hid, gT, h, blankTool, he,
          ToolStatus.isTerminal]
    · simp [applyEntry, mapUpsert, hid, gT, h, blankTool, recomputeDuration]
  · intro k hk
    have hk2 : ¬ k = se.toolCallId := by
      rw [hid]
      exact hk
    simp [applyEntry, mapUpsert, hk, hk2]
  · refine ⟨gT (.result re)
      ((applyEntry s (.toolCallStart se)).toolCalls re.toolCallId),
      ?_, ?_, ?_, ?_, ?_, ?_, ?_⟩
    · simp [applyEntry, mapUpsert]
    · simp [applyEntry, mapUpsert, hid, gT, h, blankTool]
    · simp [applyEntry, mapUpsert, hid, gT, h, blankTool]
    · simp [applyEntry, mapUpsert, hid, gT, h, blankTool]
    · simp [applyEntry, mapUpsert, hid, gT, h, blankTool]
    · simp [applyEntry, mapUpsert, hid, gT, h, blankTool]
    · simp [applyEntry, mapUpsert, hid, gT, h, blankTool, recomputeDuration]

/-- A result event arriving before its start. -/
def c4Result : ResultE :=
  { toolCallId := "t9", resultMessageId := "mr", resultText := "ok",
    isError := false, completedAt := 40 }

/-- The start event for the same tool call. -/
def c4Start : StartE :=
  { toolCallId := "t9", initiatingMessageId := "ma", toolName := "exec",
    arguments := "pwd", startedAt := 25 }

/-- C4 witness: on an empty store, result-then-start ends in one merged
row for t9 holding both halves. -/
theorem claim4_out_of_order_merge_witness :
    c4Start.toolCallId = c4Result.toolCallId ∧
    emptyStore.toolCalls c4Result.toolCallId = none ∧
    (∃ row,
      (applyEntry (applyEntry emptyStore (.toolCallResult c4Result))
          (.toolCallStart c4Start)).toolCalls c4Result.toolCallId =
        some row ∧
      row.initiatingMessageId = some c4Start.initiatingMessageId ∧
      row.toolName = some c4Start.toolName ∧
      row.startedAt = some c4Start.startedAt ∧
      row.resultMessageId = some c4Result.resultMessageId ∧
      row.completedAt = some c4Result.completedAt ∧
      row.status =
        (if c4Result.isError then ToolStatus.failed else .completed) ∧
      row.durationMs =
        some ((c4Result.completedAt : Int) - (c4Start.startedAt : Int))) :=
  ⟨by decide, rfl,
   (claim4_out_of_order_merge emptyStore c4Result c4Start (by decide) rfl).2.1⟩

/-- C5: a read never splits a line: the emitted lines are exactly the
consumed bytes (each re-terminated by its newline), the returned offset
stays within the file and past it no newline remains (the withheld
partial line), and a subsequent read from the returned offset — after
the file has grown by `ext` whose content completes a line — emits the
withheld tail as the front of its first complete line, so no byte is
lost or duplicated. -/
theorem claim5_partial_line_safety :
    ∀ (file : List Char) (fromOffset : Nat), fromOffset ≤ file.length →
      fromOffset ≤ (readFrom file fromOffset).2 ∧
      (readFrom file fromOffset).2 ≤ file.length ∧
      joinNL (readFrom file fromOffset).1 =
        (file.drop fromOffset).take
          ((readFrom file fromOffset).2 - fromOffset) ∧
      '\n' ∉ file.drop (readFrom file fromOffset).2 ∧
      (∀ (ext l : List Char) (ls : List (List Char)),
        (splitComplete ext).1 = l :: ls →
        (readFrom (file ++ ext) (readFrom file fromOffset).2).1 =
          (file.drop (readFrom file fromOffset).2 ++ l) :: ls) := by
  intro file off hoff
  obtain ⟨h1, h2, h3, h4⟩ := splitComplete_spec (file.drop off)
  have hlen : (file.drop off).length = file.length - off := by simp
  have hub : off + (splitComplete (file.drop off)).2 ≤ file.length := by
    omega
  have hdrop : file.drop (off + (splitComplete (file.drop off)).2) =
      (file.drop off).drop (splitComplete (file.drop off)).2 := by
    rw [List.drop_drop, Nat.add_comm]
  have hnl : '\n' ∉ file.drop (off + (splitComplete (file.drop off)).2) := by
    rw [hdrop]
    exact h3
  refine ⟨Nat.le_add_right off _, hub, ?_, hnl, ?_⟩
  · show joinNL (splitComplete (file.drop off)).1 =
      (file.drop off).take (off + (splitComplete (file.drop off)).2 - off)
    rw [Nat.add_sub_cancel_left]
    exact h1
  · intro ext l ls hsplit
    show (splitComplete
        ((file ++ ext).drop (off + (splitComplete (file.drop off)).2))).1 = _
    rw [List.drop_append_of_le_length hub]
    exact splitComplete_prepend _ ext l ls hnl hsplit

/-- The file for the C5 witness: "ab\ncd" — one complete line and a
partial tail "cd". -/
def c5File : List Char := ['a', 'b', '\n', 'c', 'd']

/-- C5 witness: reading "ab\ncd" from offset 0 stops before the partial
"cd"; once "!\n" is appended, the next read's first line is "cd!". -/
theorem claim5_partial_line_safety_witness :
    (0 : Nat) ≤ c5File.length ∧
    (readFrom (c5File ++ ['!', '\n']) (readFrom c5File 0).2).1 =
      (c5File.drop (readFrom c5File 0).2 ++ ['!']) :: [] :=
  ⟨by decide,
   (claim5_partial_line_safety c5File 0 (by decide)).2.2.2.2
     ['!', '\n'] ['!'] [] (by decide)⟩

/-- C6: a decode failure on one line never aborts the stream: skipping
the malformed line costs exactly one counted failure and no store
change, with every following line still processed; in particular a
malformed line between two valid lines leaves both valid entries applied
and the failure count incremented by one. -/
theorem claim6_decode_failure_isolated :
    (∀ (st : Store × Nat) (pre post : List (Except DecodeFailure Entry))
        (f : DecodeFailure),
        processLines st (pre ++ .error f :: post) =
          processLines ((processLines st pre).1, (processLines st pre).2 + 1)
            post) ∧
    (∀ (s : Store) (n : Nat) (e₁ e₂ : Entry) (f : DecodeFailure),
        processLines (s, n) [.ok e₁, .error f, .ok e₂] =
          (applyEntry (applyEntry s e₁) e₂, n + 1)) := by
  constructor
  · intro st pre post f
    unfold processLines
    rw [List.foldl_append]
    rfl
  · intro s n e₁ e₂ f
    rfl

/-- C7 (code evaluation): the stored status domain is exactly
{running, completed, failed} (`ToolStatus` is total over it), but the
tool-call status filter embedded from ActivityTab.tsx offers the value
'pending', which is outside that domain, and does not offer 'running' —
so the read-side status filter does not use the three-value domain the
claim asserts. -/
theorem claim7_status_filter_mismatch :
    (∀ st : ToolStatus, st.toName ∈ toolCallStatusDomain) ∧
    "pending" ∈ toolCallStatusFilterValues ∧
    "pending" ∉ toolCallStatusDomain ∧
    "running" ∉ toolCallStatusFilterValues := by
  refine ⟨?_, by decide, by decide, by decide⟩
  intro st
  cases st <;> decide

/-- C8: every request the query client can issue against the sessions,
messages and tool-calls endpoints is an HTTP GET — the query surface
never writes the ingestion-owned tables (it does not even carry the
permitted session soft-delete). -/
theorem claim8_query_surface_read_only :
    ((sessionsAPIRequests ++ messagesAPIRequests ++ toolCallsAPIRequests).all
      (fun r => r.method == HttpMethod.get)) = true := by
  decide

/-- C9: `classifyActiveSessions` returns exactly the session ids having
at least one event whose `started_at` lies within `cutoffMs` before
`now`; a session id with no event is never returned.  Event times are
assumed positive, as `new Date(...).getTime()` is on any real log entry
(the source's `?? 0` default makes time zero unrepresentable). -/
theorem claim9_classify_active_correct :
    ∀ (events : List MonitorEvent) (cutoffMs now : Int) (sid : String),
      (∀ e ∈ events, 0 < e.started_at) →
      (sid ∈ classifyActiveSessions events cutoffMs now ↔
        ∃ e ∈ events, e.session_id = sid ∧ now - e.started_at ≤ cutoffMs) := by
  intro events cutoff now sid hpos
  rw [mem_classify_iff]
  have hlu := latest_lookup events [] sid
  constructor
  · rintro ⟨t, hl, hc⟩
    rw [show latestPerSession events = events.foldl latestStep [] from rfl,
      hlu] at hl
    have hl' : (if 0 < maxFrom 0 events sid then some (maxFrom 0 events sid)
        else none) = some t := hl
    by_cases hpos0 : 0 < maxFrom 0 events sid
    · rw [if_pos hpos0] at hl'
      injection hl' with hl''
      rcases maxFrom_achieved events 0 sid with hach | ⟨e, he, hsid, hval⟩
      · omega
      · refine ⟨e, he, hsid, ?_⟩
        omega
    · rw [if_neg hpos0] at hl'
      cases hl'
  · rintro ⟨e, he, hsid, hc⟩
    have hp : 0 < e.started_at := hpos e he
    have hle : e.started_at ≤ maxFrom 0 events sid :=
      maxFrom_mem_le events 0 sid e he hsid
    have hpos0 : 0 < maxFrom 0 events sid := lt_of_lt_of_le hp hle
    refine ⟨maxFrom 0 events sid, ?_, ?_⟩
    · rw [show latestPerSession events = events.foldl latestStep [] from rfl,
        hlu]
      show (if 0 < maxFrom 0 events sid then some (maxFrom 0 events sid)
        else none) = _
      rw [if_pos hpos0]
    · omega

/-- The single event for the C9 witness. -/
def c9Events : List MonitorEvent := [⟨"s1", 100⟩]

/-- C9 witness: with one event for s1 at time 100, cutoff 50 and now
120, s1 is classified active and the characterizing equivalence holds. -/
theorem claim9_classify_active_correct_witness :
    (∀ e ∈ c9Events, 0 < e.started_at) ∧
    ("s1" ∈ classifyActiveSessions c9Events 50 120 ↔
      ∃ e ∈ c9Events, e.session_id = "s1" ∧ 120 - e.started_at ≤ 50) :=
  ⟨by decide, claim9_classify_active_correct c9Events 50 120 "s1" (by decide)⟩

/-- C10: whenever `allRows` is non-empty, `visibleRows` is non-empty for
every filter selection and every pair of active/today session sets: the
'active' selection falls back to 'today' and then to all rows, and the
'today' selection falls back to all rows. -/
theorem claim10_visible_rows_nonempty :
    ∀ (allRows : List TimelineRow) (f : SessionFilter)
      (activeIds todayIds : String → Bool),
      allRows ≠ [] → visibleRows allRows f activeIds todayIds ≠ [] := by
  intro allRows f a t hne
  cases f with
  | all => exact hne
  | active =>
    show (if (allRows.filter (fun r => a r.sessionId)).isEmpty then
        (if (allRows.filter (fun r => t r.sessionId)).isEmpty then allRows
         else allRows.filter (fun r => t r.sessionId))
      else allRows.filter (fun r => a r.sessionId)) ≠ []
    split_ifs with h1 h2
    · exact hne
    · intro hcontra
      rw [hcontra] at h2
      simp at h2
    · intro hcontra
      rw [hcontra] at h1
      simp at h1
  | today =>
    show (if (allRows.filter (fun r => t r.sessionId)).isEmpty then allRows
      else allRows.filter (fun r => t r.sessionId)) ≠ []
    split_ifs with h1
    · exact hne
    · intro hcontra
      rw [hcontra] at h1
      simp at h1

/-- The rows for the C10 witness. -/
def c10Rows : List TimelineRow := [⟨"s1"⟩]

/-- C10 witness: one row, 'active' selected, both session sets empty —
the timeline still shows the row via the fallback. -/
theorem claim10_visible_rows_nonempty_witness :
    c10Rows ≠ [] ∧
    visibleRows c10Rows .active (fun _ => false) (fun _ => false) ≠ [] :=
  ⟨by decide,
   claim10_visible_rows_nonempty c10Rows .active (fun _ => false)
     (fun _ => false) (by decide)⟩

end SafetyAgent
